import Mathlib

/-! Verification of the ParvaOS physical-memory bootstrap layer
(`src/parva_os/src/memory.rs`) and the process environment store
(`src/parva_os/src/process.rs`), shallowly embedded in Lean.

Physical and virtual addresses are modelled as `Nat`; `u64` wrap-around is
made explicit (`% 2 ^ 64`) where it can occur on realizable inputs, and the
canonical-address panic of the `VirtAddr` constructor is modelled as `none`.
-/

/-! Data model: the boot memory map (bootloader crate types used by memory.rs). -/

/-- Classification of a boot memory region (`bootloader::bootinfo::MemoryRegionType`).
The code only distinguishes `Usable` from everything else. -/
inductive MemoryRegionType where
  | Usable
  | InUse
  | Reserved
  | AcpiReclaimable
  | AcpiNvs
  | BadMemory
  | Kernel
  | KernelStack
  | PageTable
  | Bootloader
  | FrameZero
  | Empty
  | BootInfo
  | Package
deriving DecidableEq, Repr

/-- Range of physical frames (`bootloader::bootinfo::FrameRange`): stored as frame
numbers, so `start_addr`/`end_addr` are always multiples of 4096. -/
structure FrameRange where
  start_frame_number : Nat
  end_frame_number : Nat
deriving DecidableEq, Repr

/-- Start address of a frame range: `start_frame_number * 4096`. -/
def FrameRange.start_addr (r : FrameRange) : Nat :=
  r.start_frame_number * 4096

/-- End address (exclusive) of a frame range: `end_frame_number * 4096`. -/
def FrameRange.end_addr (r : FrameRange) : Nat :=
  r.end_frame_number * 4096

/-- A boot memory region: a frame range plus its classification. -/
structure MemoryRegion where
  range : FrameRange
  region_type : MemoryRegionType
deriving DecidableEq, Repr

/-- The boot record consumed by `init`: the firmware memory map (in reported
order) and the physical-memory offset. -/
structure BootInfo where
  memory_map : List MemoryRegion
  physical_memory_offset : Nat
deriving DecidableEq, Repr

/-! Definitions from memory.rs. -/

/-- A `PhysFrame` is identified by its 4096-aligned start address.
`PhysFrame::containing_address(addr)` aligns `addr` down to a frame boundary. -/
def PhysFrame.containing_address (addr : Nat) : Nat :=
  addr / 4096 * 4096

/-- Rust `(start..stop).step_by(4096)`: the addresses `start, start + 4096, ...`
while still below `stop`; in closed form the `i`-th element is `start + 4096 * i`
with `i < ⌈(stop - start) / 4096⌉`. -/
def range_step (start stop : Nat) : List Nat :=
  (List.range ((stop - start + 4095) / 4096)).map fun i => start + 4096 * i

/-- The `BootInfoFrameAllocator` struct: the borrowed memory map plus the allocation
cursor `next` (a `usize`; overflow after 2^64 calls is disregarded, as in
spec §9). -/
structure BootInfoFrameAllocator where
  memory_map : List MemoryRegion
  next : Nat
deriving DecidableEq, Repr

/-- Constructor `BootInfoFrameAllocator::init`: cursor starts at 0. -/
def BootInfoFrameAllocator.init (memory_map : List MemoryRegion) :
    BootInfoFrameAllocator :=
  { memory_map := memory_map, next := 0 }

/-- Method `BootInfoFrameAllocator::usable_frames`: filter regions to `Usable`, map to
address ranges, step each by 4096, and take the containing frame of each
address. -/
def BootInfoFrameAllocator.usable_frames (self : BootInfoFrameAllocator) :
    List Nat :=
  let regions := self.memory_map
  let usable_regions := regions.filter fun r =>
    r.region_type == MemoryRegionType.Usable
  let addr_ranges := usable_regions.map fun r =>
    (r.range.start_addr, r.range.end_addr)
  let frame_addresses := addr_ranges.flatMap fun r => range_step r.1 r.2
  frame_addresses.map fun addr => PhysFrame.containing_address addr

/-- Trait impl `FrameAllocator::allocate_frame` for `BootInfoFrameAllocator`: returns the
`next`-th element of `usable_frames` (Rust `Iterator::nth`) and increments the
cursor regardless of success. Returns the result and the updated allocator. -/
def BootInfoFrameAllocator.allocate_frame (self : BootInfoFrameAllocator) :
    Option Nat × BootInfoFrameAllocator :=
  (self.usable_frames[self.next]?, { self with next := self.next + 1 })

/-- Function `init`: the memory-size accumulation loop (`memory_size += end - start` over
all regions), recording of `PHYS_MEM_OFFSET`, and construction of the frame
allocator. Returns (reported memory size, recorded offset, allocator); the
diagnostic printing and the heap hand-off are external effects. -/
def init (boot_info : BootInfo) : Nat × Nat × BootInfoFrameAllocator :=
  let memory_size := boot_info.memory_map.foldl
    (fun memory_size region =>
      memory_size + (region.range.end_addr - region.range.start_addr)) 0
  (memory_size, boot_info.physical_memory_offset,
    BootInfoFrameAllocator.init boot_info.memory_map)

/-- Constructor `x86_64::VirtAddr::new`: the `u64` argument must be a canonical
virtual address — bits 48-63 sign-extend bit 47, i.e. the address is below
2^47 or at least 2^64 - 2^47 — and the constructor panics otherwise. The panic
is modelled as `none`. -/
def VirtAddr.new (addr : Nat) : Option Nat :=
  if addr < 2 ^ 47 ∨ 2 ^ 64 - 2 ^ 47 ≤ addr then some addr else none

/-- Function `phys_to_virt`: `VirtAddr::new(addr.as_u64() + PHYS_MEM_OFFSET)`,
with the initialized global offset passed explicitly; `u64` addition wraps,
and `VirtAddr::new` panics (modelled `none`) when the sum is not canonical. -/
def phys_to_virt (PHYS_MEM_OFFSET : Nat) (addr : Nat) : Option Nat :=
  VirtAddr.new ((addr + PHYS_MEM_OFFSET) % 2 ^ 64)

/-- Function `virt_to_phys`: rebuilds the mapper at the global offset and delegates the
page-table walk to the external paging capability (`MapperAllSizes::
translate_addr`), modelled as a function from virtual addresses to optional
physical addresses. -/
def virt_to_phys (translate_addr : Nat → Option Nat) (addr : Nat) :
    Option Nat :=
  translate_addr addr

/-! Derived runs of the allocator. -/

/-- State of the allocator after `k` calls to `allocate_frame`. -/
def allocSteps (a : BootInfoFrameAllocator) : Nat → BootInfoFrameAllocator
  | 0 => a
  | k + 1 => (allocSteps a k).allocate_frame.2

/-- Results of the first `n` calls to `allocate_frame`, starting from `a`. -/
def allocRun (a : BootInfoFrameAllocator) : Nat → List (Option Nat)
  | 0 => []
  | n + 1 => a.allocate_frame.1 :: allocRun a.allocate_frame.2 n

/-! Spec-side frame sequence (for the refinement claim C1).

This definition follows the SPEC's words (§4.3 iteration order), to be compared
with `usable_frames` from the source: regions in boot-map order, keep only
`Usable`, within each kept region the addresses `start, start + 4096, ...`
while still below `end`, one candidate frame per step, concatenated. -/

/-- The frame sequence as the spec describes it. -/
def spec_frame_sequence (memory_map : List MemoryRegion) : List Nat :=
  (memory_map.filter fun r => r.region_type == MemoryRegionType.Usable).flatMap
    fun r => range_step r.range.start_addr r.range.end_addr

/-! Definitions from process.rs.

The global `PROCESS: Mutex<Process>` state is passed explicitly; the module
runs under a lock, so each function is a pure reader or transformer of the
`Process` value. `BTreeMap<String, String>` is modelled by its map semantics
(`String → Option String`); `clone` of owned values is the identity. -/

/-- The `Process` struct: id, environment map, working directory. -/
structure Process where
  id : Nat
  env : String → Option String
  dir : String

/-- Constructor `Process::new(dir)`: fresh id (drawn from the `PIDS` counter, passed in),
empty environment, the given directory. -/
def Process.new (id : Nat) (dir : String) : Process :=
  { id := id, env := fun _ => none, dir := dir }

/-- Function `process::id()`: the id field of the global process. -/
def process.id (PROCESS : Process) : Nat :=
  PROCESS.id

/-- Function `process::env(key)`: look the key up in the environment map, cloning the
value when present. -/
def process.env (key : String) (PROCESS : Process) : Option String :=
  match PROCESS.env key with
  | some val => some val
  | none => none

/-- Function `process::envs()`: a clone of the whole environment map. -/
def process.envs (PROCESS : Process) : String → Option String :=
  PROCESS.env

/-- Function `process::dir()`: a clone of the working directory. -/
def process.dir (PROCESS : Process) : String :=
  PROCESS.dir

/-- Function `process::set_env(key, val)`: `BTreeMap::insert`, replacing any previous
binding of `key` and leaving all other keys unchanged. -/
def process.set_env (key val : String) (PROCESS : Process) : Process :=
  { PROCESS with env := fun k => if k = key then some val else PROCESS.env k }

/-- Function `process::set_dir(dir)`: overwrite the working-directory field. -/
def process.set_dir (dir : String) (PROCESS : Process) : Process :=
  { PROCESS with dir := dir }

/-- A sequence of `set_env` calls applied in order (used to express that a key
was never set). -/
def applyEnvOps (PROCESS : Process) : List (String × String) → Process
  | [] => PROCESS
  | op :: ops => applyEnvOps (process.set_env op.1 op.2 PROCESS) ops

/-! Helper lemmas about `range_step` and `usable_frames`. -/

lemma lt_step_count_iff (D i : Nat) : i < (D + 4095) / 4096 ↔ 4096 * i < D := by
  rw [Nat.lt_iff_add_one_le, Nat.le_div_iff_mul_le (by norm_num : 0 < 4096)]
  omega

lemma mem_range_step {s e f : Nat} :
    f ∈ range_step s e ↔ ∃ i, 4096 * i < e - s ∧ f = s + 4096 * i := by
  simp only [range_step, List.mem_map, List.mem_range, lt_step_count_iff]
  constructor
  · rintro ⟨i, hi, rfl⟩
    exact ⟨i, hi, rfl⟩
  · rintro ⟨i, hi, rfl⟩
    exact ⟨i, hi, rfl⟩

lemma range_step_bounds {s e f : Nat} (h : f ∈ range_step s e) :
    s ≤ f ∧ f < e := by
  rcases mem_range_step.mp h with ⟨i, hi, rfl⟩
  omega

lemma range_step_dvd {s e f : Nat} (hs : 4096 ∣ s) (h : f ∈ range_step s e) :
    4096 ∣ f := by
  rcases mem_range_step.mp h with ⟨i, _, rfl⟩
  exact Nat.dvd_add hs (Dvd.intro i rfl)

lemma containing_address_of_dvd {f : Nat} (h : 4096 ∣ f) :
    PhysFrame.containing_address f = f := by
  unfold PhysFrame.containing_address
  exact Nat.div_mul_cancel h

lemma range_step_nodup (s e : Nat) : (range_step s e).Nodup := by
  refine List.Nodup.map ?_ (List.nodup_range _)
  intro i j hij
  have h2 : s + 4096 * i = s + 4096 * j := hij
  omega

lemma start_addr_dvd (r : MemoryRegion) : 4096 ∣ r.range.start_addr :=
  ⟨r.range.start_frame_number, Nat.mul_comm _ _⟩

lemma end_addr_dvd (r : MemoryRegion) : 4096 ∣ r.range.end_addr :=
  ⟨r.range.end_frame_number, Nat.mul_comm _ _⟩

lemma map_id_of_mem {α : Type} (f : α → α) :
    ∀ (l : List α), (∀ x ∈ l, f x = x) → l.map f = l
  | [], _ => rfl
  | x :: xs, h => by
    simp only [List.map_cons]
    rw [h x (by simp), map_id_of_mem f xs (fun y hy => h y (by simp [hy]))]

/-- Every address in the code's frame pipeline is already 4096-aligned (the
frame ranges hold frame numbers), so the final `containing_address` pass is
the identity and `usable_frames` coincides with the spec's sequence. -/
lemma usable_frames_eq_spec (map : List MemoryRegion) :
    (BootInfoFrameAllocator.init map).usable_frames = spec_frame_sequence map := by
  unfold BootInfoFrameAllocator.usable_frames spec_frame_sequence
    BootInfoFrameAllocator.init
  simp only [List.flatMap_map]
  refine map_id_of_mem _ _ ?_
  intro f hf
  rcases List.mem_flatMap.mp hf with ⟨r, hr, hfr⟩
  exact containing_address_of_dvd (range_step_dvd (start_addr_dvd r) hfr)

/-- The cursor is the only thing `allocate_frame` changes, and `usable_frames`
depends only on the memory map. -/
lemma usable_frames_allocate (a : BootInfoFrameAllocator) :
    a.allocate_frame.2.usable_frames = a.usable_frames := by
  rfl

lemma allocSteps_next (a : BootInfoFrameAllocator) :
    ∀ k, (allocSteps a k).next = a.next + k ∧
      (allocSteps a k).memory_map = a.memory_map
  | 0 => ⟨rfl, rfl⟩
  | k + 1 => by
    have ih := allocSteps_next a k
    unfold allocSteps
    constructor
    · show (allocSteps a k).next + 1 = a.next + (k + 1)
      omega
    · exact ih.2

lemma allocRun_eq (n : Nat) :
    ∀ (a : BootInfoFrameAllocator),
      allocRun a n = (List.range n).map fun i => a.usable_frames[a.next + i]? := by
  induction n with
  | zero => intro a; rfl
  | succ n ih =>
    intro a
    rw [List.range_succ_eq_map, List.map_cons, List.map_map]
    show a.usable_frames[a.next]? :: allocRun a.allocate_frame.2 n = _
    rw [ih]
    have hfr : a.allocate_frame.2.usable_frames = a.usable_frames := rfl
    have hnx : a.allocate_frame.2.next = a.next + 1 := rfl
    rw [hfr, hnx]
    have htail : (fun i => a.usable_frames[a.next + 1 + i]?) =
        ((fun i => a.usable_frames[a.next + i]?) ∘ Nat.succ) := by
      funext i
      show a.usable_frames[a.next + 1 + i]? = a.usable_frames[a.next + i.succ]?
      congr 1
      omega
    rw [htail, Nat.add_zero]

lemma run_filterMap {α : Type} (l : List α) (n : Nat) :
    ((List.range n).map fun i => l[i]?).filterMap id = l.take n := by
  induction n with
  | zero => simp
  | succ n ih =>
    rw [List.range_succ, List.map_append, List.filterMap_append, ih,
      List.take_succ]
    cases h : l[n]? <;> simp [h]

lemma usable_frames_nodup (map : List MemoryRegion)
    (hdisj : (map.filter fun r =>
        r.region_type == MemoryRegionType.Usable).Pairwise
      fun r1 r2 => r1.range.end_addr ≤ r2.range.start_addr ∨
        r2.range.end_addr ≤ r1.range.start_addr) :
    (BootInfoFrameAllocator.init map).usable_frames.Nodup := by
  rw [usable_frames_eq_spec]
  unfold spec_frame_sequence
  rw [List.nodup_flatMap]
  constructor
  · intro r _
    exact range_step_nodup _ _
  · refine hdisj.imp ?_
    intro r1 r2 h
    intro f hf1 hf2
    rcases range_step_bounds hf1 with ⟨a1, b1⟩
    rcases range_step_bounds hf2 with ⟨a2, b2⟩
    rcases h with h | h <;> omega

lemma mem_usable_frames {map : List MemoryRegion} {f : Nat}
    (h : f ∈ (BootInfoFrameAllocator.init map).usable_frames) :
    4096 ∣ f ∧ ∃ r, r ∈ map ∧ r.region_type = MemoryRegionType.Usable ∧
      r.range.start_addr ≤ f ∧ f < r.range.end_addr := by
  rw [usable_frames_eq_spec] at h
  unfold spec_frame_sequence at h
  rcases List.mem_flatMap.mp h with ⟨r, hr, hfr⟩
  rcases List.mem_filter.mp hr with ⟨hrmap, hru⟩
  rcases range_step_bounds hfr with ⟨h1, h2⟩
  exact ⟨range_step_dvd (start_addr_dvd r) hfr,
    r, hrmap, by simpa using hru, h1, h2⟩

lemma foldl_add_map {α : Type} (g : α → Nat) :
    ∀ (l : List α), l.foldl (fun acc x => acc + g x) 0 = (l.map g).sum := by
  have general : ∀ (l : List α) (c : Nat),
      l.foldl (fun acc x => acc + g x) c = c + (l.map g).sum := by
    intro l
    induction l with
    | nil => intro c; simp
    | cons x xs ih =>
      intro c
      show xs.foldl _ (c + g x) = c + ((x :: xs).map g).sum
      rw [ih, List.map_cons, List.sum_cons]
      omega
  intro l
  rw [general l 0, Nat.zero_add]

lemma phys_to_virt_eq_of_canonical (PHYS_MEM_OFFSET p : Nat)
    (h : p + PHYS_MEM_OFFSET < 2 ^ 47 ∨
      (2 ^ 64 - 2 ^ 47 ≤ p + PHYS_MEM_OFFSET ∧ p + PHYS_MEM_OFFSET < 2 ^ 64)) :
    phys_to_virt PHYS_MEM_OFFSET p = some (p + PHYS_MEM_OFFSET) := by
  have hlt : p + PHYS_MEM_OFFSET < 2 ^ 64 := by
    rcases h with h | h
    · have h2 : (2 : Nat) ^ 47 < 2 ^ 64 := by norm_num
      omega
    · exact h.2
  have hc : p + PHYS_MEM_OFFSET < 2 ^ 47 ∨
      2 ^ 64 - 2 ^ 47 ≤ p + PHYS_MEM_OFFSET := by
    rcases h with h | h
    · exact Or.inl h
    · exact Or.inr h.1
  unfold phys_to_virt VirtAddr.new
  rw [Nat.mod_eq_of_lt hlt, if_pos hc]

lemma process_env_eq (key : String) (p : Process) :
    process.env key p = p.env key := by
  unfold process.env
  cases p.env key <;> rfl

lemma applyEnvOps_preserve_none (key : String) :
    ∀ (ops : List (String × String)) (p : Process),
      (∀ op ∈ ops, op.1 ≠ key) → p.env key = none →
      (applyEnvOps p ops).env key = none
  | [], _, _, hp => hp
  | op :: ops, p, h, hp => by
    apply applyEnvOps_preserve_none key ops
    · intro q hq
      exact h q (List.mem_cons_of_mem _ hq)
    · show (if key = op.1 then some op.2 else p.env key) = none
      rw [if_neg fun hk => h op (List.mem_cons_self _ _) hk.symm, hp]

/-! Claim theorems. -/

/-- Claim C1: the allocator draws from exactly the sequence the spec describes
(regions in boot-map order, only `Usable` kept, addresses `start, start+4096,
...` while below `end`, concatenated in region order), and no partial trailing
frame is produced: every frame fits entirely inside its usable region. -/
theorem usable_frames_match_spec_order (map : List MemoryRegion) :
    (BootInfoFrameAllocator.init map).usable_frames = spec_frame_sequence map ∧
    ∀ f ∈ (BootInfoFrameAllocator.init map).usable_frames,
      ∃ r, r ∈ map ∧ r.region_type = MemoryRegionType.Usable ∧
        r.range.start_addr ≤ f ∧ f + 4096 ≤ r.range.end_addr := by
  refine ⟨usable_frames_eq_spec map, ?_⟩
  intro f hf
  rcases mem_usable_frames hf with ⟨hdvd, r, hrmap, hru, h1, h2⟩
  refine ⟨r, hrmap, hru, h1, ?_⟩
  rcases hdvd with ⟨cf, rfl⟩
  rcases end_addr_dvd r with ⟨ce, he⟩
  rw [he] at h2 ⊢
  omega

theorem usable_frames_match_spec_order_witness :
    ∃ r, r ∈ [(⟨⟨1, 3⟩, MemoryRegionType.Usable⟩ : MemoryRegion)] ∧
      r.region_type = MemoryRegionType.Usable ∧
      r.range.start_addr ≤ 4096 ∧ 4096 + 4096 ≤ r.range.end_addr :=
  (usable_frames_match_spec_order
    [⟨⟨1, 3⟩, MemoryRegionType.Usable⟩]).2 4096 (by decide)

/-- Claim C2: `allocate_frame` returns the frame at the current cursor position
of the usable-frame sequence (or `none` if there is none), advances the cursor
by exactly one regardless of success, never touches the memory map, the cursor
never decreases across calls, and once a call returns `none` every later call
on the same instance returns `none`. -/
theorem allocate_frame_cursor_semantics (a : BootInfoFrameAllocator) :
    a.allocate_frame.1 = a.usable_frames[a.next]? ∧
    a.allocate_frame.2.next = a.next + 1 ∧
    a.allocate_frame.2.memory_map = a.memory_map ∧
    (∀ k, (allocSteps a k).next = a.next + k) ∧
    (a.allocate_frame.1 = none →
      ∀ k, (allocSteps a k).allocate_frame.1 = none) := by
  refine ⟨rfl, rfl, rfl, fun k => (allocSteps_next a k).1, ?_⟩
  intro h k
  have hlen : a.usable_frames.length ≤ a.next :=
    List.getElem?_eq_none_iff.mp h
  have hmap : (allocSteps a k).usable_frames = a.usable_frames := by
    unfold BootInfoFrameAllocator.usable_frames
    rw [(allocSteps_next a k).2]
  show (allocSteps a k).usable_frames[(allocSteps a k).next]? = none
  rw [hmap, (allocSteps_next a k).1]
  exact List.getElem?_eq_none (by omega)

theorem allocate_frame_cursor_semantics_witness :
    (allocSteps (BootInfoFrameAllocator.init []) 5).allocate_frame.1 = none :=
  (allocate_frame_cursor_semantics
    (BootInfoFrameAllocator.init [])).2.2.2.2 rfl 5

/-- Claim C3: the total memory reported by `init` is the sum of
`end_addr - start_addr` over all regions, with no filtering by
classification. -/
theorem init_total_memory (boot_info : BootInfo) :
    (init boot_info).1 =
      (boot_info.memory_map.map fun r =>
        r.range.end_addr - r.range.start_addr).sum := by
  show boot_info.memory_map.foldl _ 0 = _
  rw [foldl_add_map]

/-- Claim C4 as stated is false: for a region list with overlapping `Usable`
regions the allocator returns the same frame address twice. -/
theorem allocate_frame_duplicate_counterexample :
    allocRun (BootInfoFrameAllocator.init
        [⟨⟨0, 2⟩, MemoryRegionType.Usable⟩,
         ⟨⟨1, 3⟩, MemoryRegionType.Usable⟩]) 4
      = [some 0, some 4096, some 4096, some 8192] ∧
    ¬ ((allocRun (BootInfoFrameAllocator.init
        [⟨⟨0, 2⟩, MemoryRegionType.Usable⟩,
         ⟨⟨1, 3⟩, MemoryRegionType.Usable⟩]) 4).filterMap id).Nodup := by
  decide

/-- Claim C4 (amended): every frame ever returned by `allocate_frame` is
4096-aligned and lies in some `Usable` region; and provided the `Usable`
regions of the map are pairwise disjoint, no frame address is returned more
than once by one allocator instance. -/
theorem allocate_frame_sound (map : List MemoryRegion) (n : Nat) :
    (∀ f, some f ∈ allocRun (BootInfoFrameAllocator.init map) n →
      f % 4096 = 0 ∧ ∃ r, r ∈ map ∧ r.region_type = MemoryRegionType.Usable ∧
        r.range.start_addr ≤ f ∧ f < r.range.end_addr) ∧
    (((map.filter fun r =>
        r.region_type == MemoryRegionType.Usable).Pairwise
      fun r1 r2 => r1.range.end_addr ≤ r2.range.start_addr ∨
        r2.range.end_addr ≤ r1.range.start_addr) →
      ((allocRun (BootInfoFrameAllocator.init map) n).filterMap id).Nodup) := by
  have hzero : (fun i =>
      (BootInfoFrameAllocator.init map).usable_frames[(0 : Nat) + i]?) =
      fun i => (BootInfoFrameAllocator.init map).usable_frames[i]? := by
    funext i
    rw [Nat.zero_add]
  constructor
  · intro f hf
    rw [allocRun_eq] at hf
    rcases List.mem_map.mp hf with ⟨i, _, hfi⟩
    have hmem : f ∈ (BootInfoFrameAllocator.init map).usable_frames :=
      List.getElem?_mem hfi
    rcases mem_usable_frames hmem with ⟨hdvd, hr⟩
    refine ⟨?_, hr⟩
    rcases hdvd with ⟨c, rfl⟩
    simp [Nat.mul_mod_right]
  · intro hdisj
    rw [allocRun_eq]
    show ((List.range n).map fun i =>
      (BootInfoFrameAllocator.init map).usable_frames[(0 : Nat) + i]?).filterMap
        id |>.Nodup
    rw [hzero, run_filterMap]
    exact (usable_frames_nodup map hdisj).sublist (List.take_sublist _ _)

theorem allocate_frame_sound_witness :
    ((allocRun (BootInfoFrameAllocator.init
      [⟨⟨1, 3⟩, MemoryRegionType.Usable⟩]) 3).filterMap id).Nodup :=
  (allocate_frame_sound [⟨⟨1, 3⟩, MemoryRegionType.Usable⟩] 3).2 (by decide)

/-- Claim C6: `virt_to_phys` returns exactly what the page-table walk yields —
the physical address when a translation exists, `none` when the page is
unmapped; being a total function, it cannot panic. -/
theorem virt_to_phys_translation (translate_addr : Nat → Option Nat)
    (v : Nat) :
    virt_to_phys translate_addr v = translate_addr v ∧
    (translate_addr v = none → virt_to_phys translate_addr v = none) ∧
    (∀ p, translate_addr v = some p →
      virt_to_phys translate_addr v = some p) :=
  ⟨rfl, fun h => h, fun _ h => h⟩

theorem virt_to_phys_translation_witness :
    virt_to_phys (fun _ => none) 42 = none :=
  (virt_to_phys_translation (fun _ => none) 42).2.1 rfl

/-- Claim C7: on the region list `[(0x0-0x1000, Reserved), (0x1000-0x3000,
Usable)]` with offset `0x100000000000`, `init` reports `0x3000` bytes and
records the offset, and the allocator returns `0x1000`, then `0x2000`, then
`none`. -/
theorem init_concrete_scenario :
    (init ⟨[⟨⟨0, 1⟩, MemoryRegionType.Reserved⟩,
            ⟨⟨1, 3⟩, MemoryRegionType.Usable⟩],
           0x100000000000⟩).1 = 0x3000 ∧
    (init ⟨[⟨⟨0, 1⟩, MemoryRegionType.Reserved⟩,
            ⟨⟨1, 3⟩, MemoryRegionType.Usable⟩],
           0x100000000000⟩).2.1 = 0x100000000000 ∧
    allocRun (init ⟨[⟨⟨0, 1⟩, MemoryRegionType.Reserved⟩,
            ⟨⟨1, 3⟩, MemoryRegionType.Usable⟩],
           0x100000000000⟩).2.2 3 = [some 0x1000, some 0x2000, none] := by
  decide

/-- Claim C8: round-trip of the two translation directions — when the identity
offset mapping is active in the page tables and `p + offset` is canonical (as
it is for every physical address mapped at the offset), `phys_to_virt`
succeeds and `virt_to_phys` maps its result back to `some p`. -/
theorem translation_round_trip (translate_addr : Nat → Option Nat)
    (PHYS_MEM_OFFSET p : Nat)
    (hident : ∀ v, PHYS_MEM_OFFSET ≤ v →
      translate_addr v = some (v - PHYS_MEM_OFFSET))
    (h : p + PHYS_MEM_OFFSET < 2 ^ 47 ∨
      (2 ^ 64 - 2 ^ 47 ≤ p + PHYS_MEM_OFFSET ∧ p + PHYS_MEM_OFFSET < 2 ^ 64)) :
    (phys_to_virt PHYS_MEM_OFFSET p).bind (virt_to_phys translate_addr)
      = some p := by
  rw [phys_to_virt_eq_of_canonical PHYS_MEM_OFFSET p h]
  show virt_to_phys translate_addr (p + PHYS_MEM_OFFSET) = some p
  unfold virt_to_phys
  rw [hident _ (Nat.le_add_left _ _)]
  congr 1
  omega

theorem translation_round_trip_witness :
    (phys_to_virt 4096 12288).bind
      (virt_to_phys fun v => if 4096 ≤ v then some (v - 4096) else none)
      = some 12288 :=
  translation_round_trip (fun v => if 4096 ≤ v then some (v - 4096) else none)
    4096 12288 (fun v hv => by simp [hv]) (Or.inl (by norm_num))

/-- Claim C9: after `set_env(k, v)`, `env(k)` returns `some v` (the most recent
value set for `k`); `set_env` leaves every other key unchanged; and a key never
set since the process was created maps to `none`. -/
theorem set_env_get_semantics (PROCESS : Process) (key val : String) :
    process.env key (process.set_env key val PROCESS) = some val ∧
    (∀ key2, key2 ≠ key →
      process.env key2 (process.set_env key val PROCESS) =
        process.env key2 PROCESS) ∧
    (∀ (i : Nat) (d : String) (ops : List (String × String)),
      (∀ op ∈ ops, op.1 ≠ key) →
      process.env key (applyEnvOps (Process.new i d) ops) = none) := by
  refine ⟨?_, ?_, ?_⟩
  · rw [process_env_eq]
    show (if key = key then some val else PROCESS.env key) = some val
    rw [if_pos rfl]
  · intro key2 hne
    rw [process_env_eq, process_env_eq]
    show (if key2 = key then some val else PROCESS.env key2) = PROCESS.env key2
    rw [if_neg hne]
  · intro i d ops h
    rw [process_env_eq]
    exact applyEnvOps_preserve_none key ops (Process.new i d) h rfl

theorem set_env_get_semantics_witness :
    process.env "PATH" (applyEnvOps (Process.new 0 "/")
      [("HOME", "/root")]) = none :=
  (set_env_get_semantics (Process.new 0 "/") "PATH" "x").2.2 0 "/"
    [("HOME", "/root")] (by decide)

/-- Claim C10: `set_dir(d)` updates only the working directory — `dir()` then
returns `d`, while `id()` and the map returned by `envs()` are unchanged. -/
theorem set_dir_frame_condition (PROCESS : Process) (d : String) :
    process.dir (process.set_dir d PROCESS) = d ∧
    process.id (process.set_dir d PROCESS) = process.id PROCESS ∧
    process.envs (process.set_dir d PROCESS) = process.envs PROCESS :=
  ⟨rfl, rfl, rfl⟩
